import Mathlib

/-!
Shallow embedding of `spiro.c`, the control firmware for a PWM-driven motor,
together with theorems about its duty-cycle scaler, its 16-bit linear
congruential generator, its ramp/interpolation loop, and its busy-wait
timing loop.

Machine integers are modelled as `Nat`/`Int` with explicit `% 2^w` at the
points where the C code's fixed-width arithmetic can wrap.  On the AVR
target `int` is 16 bits wide, `uint16_t` has the same rank as `int` (so
`uint16_t` operands do not promote to `int` and arithmetic on them is
carried out modulo 2^16), and `uint8_t` promotes to the 16-bit `int`.
-/

/-- `#define PWM_MIN (62)` — the minimum sustaining duty cycle. -/
def PWM_MIN : Nat := 62

/-- `scale_pwm` from `spiro.c`:
`return (uint8_t)(((uint16_t)(255 - PWM_MIN) * in + 127) / 255) + PWM_MIN;`
The product/sum are computed in `uint16_t` (modulo 2^16), the quotient is
cast to `uint8_t` (modulo 2^8), and the final sum is reduced modulo 2^8 by
the `uint8_t` return type. -/
def scale_pwm (inp : Nat) : Nat :=
  (((255 - PWM_MIN) * inp + 127) % 65536 / 255 % 256 + PWM_MIN) % 256

/-- The pseudo-random update from `spiro.c` line 111:
`rnd = (rnd << 2) + rnd + 0x3333;` on a `uint16_t` (`<< 2` is
multiplication by 4; each `uint16_t` operation wraps modulo 2^16). -/
def rndStep (rnd : Nat) : Nat :=
  (rnd * 4 % 65536 + rnd + 0x3333) % 65536

/-- The ramp target from `spiro.c` line 112:
`uint8_t to_pwm = scale_pwm(rnd >> 8);`, applied to the freshly updated
random state. -/
def rampTarget (rnd : Nat) : Nat :=
  scale_pwm (rndStep rnd >>> 8)

/-- Trace of one ramp leg: the final duty held in `pwm`, the list of duty
values written to `OCR0A` by `set_pwm` (in order), and the number of
busy-wait delays executed (one per iteration of the `for` loop). -/
structure LegTrace where
  finalPwm : Nat
  writes : List Nat
  waits : Nat

/-- The body of the ramp loop `for (int16_t t = delta_t; t >= 0; t--)`
from `spiro.c` lines 124-130, with the fuel argument counting the
remaining iterations.  Each iteration performs
`error += delta_p; if (error >= 0) { error -= delta_t << 1; pwm += ip; set_pwm(pwm); }`
followed by one busy-wait.  `ip` is the `uint8_t` image of the `int8_t`
direction (`1` or `255 = (uint8_t)(-1)`), so `pwm += ip` is
`(pwm + ip) % 256`; `error` and `delta_p` are `int16_t` values that never
overflow, modelled as `Int`. -/
def rampGo (ip : Nat) (dp : Int) : Nat → Nat → Int → LegTrace
  | 0, pwm, _ => ⟨pwm, [], 0⟩
  | t + 1, pwm, error =>
    if 0 ≤ error + dp then
      let pwm2 := (pwm + ip) % 256
      let r := rampGo ip dp t pwm2 (error + dp - 510)
      ⟨r.finalPwm, pwm2 :: r.writes, r.waits + 1⟩
    else
      let r := rampGo ip dp t pwm (error + dp)
      ⟨r.finalPwm, r.writes, r.waits + 1⟩

/-- One full ramp leg, `spiro.c` lines 114-130:
`delta_p = to_pwm - pwm; ip = 1; if (delta_p < 0) { ip = -1; delta_p = -delta_p; }
delta_p <<= 1; error = -delta_t;` then the loop runs `t = 255, 254, ..., 0`,
i.e. 256 iterations (`delta_t` is the macro constant 255). -/
def rampLeg (pwm to_pwm : Nat) : LegTrace :=
  let delta_p : Int := (to_pwm : Int) - (pwm : Int)
  if delta_p < 0 then
    rampGo 255 (-delta_p * 2) 256 pwm (-255)
  else
    rampGo 1 (delta_p * 2) 256 pwm (-255)

/-- Number of duty changes performed by the ramp loop on fuel `n`,
starting from error accumulator `e`, when the doubled travel distance is
`2 * m`.  Mirrors the branch structure of `rampGo`. -/
def stepCount (m : Nat) : Nat → Int → Nat
  | 0, _ => 0
  | n + 1, e =>
    if 0 ≤ e + 2 * (m : Int) then stepCount m n (e + 2 * (m : Int) - 510) + 1
    else stepCount m n (e + 2 * (m : Int))

/-- Travel distance `|to_pwm - pwm|` of a ramp leg, as a `Nat`. -/
def legTravel (pwm to_pwm : Nat) : Nat := max pwm to_pwm - min pwm to_pwm

/-- The number of duty changes one ramp leg actually performs for travel
distance `m`: `m` itself when `m ≤ 127`, and `m + 1` (one overshoot step)
when `m ≥ 128`, because the loop runs 256 iterations rather than 255. -/
def legSteps (m : Nat) : Nat := if m ≤ 127 then m else m + 1

/-- The per-step busy-wait, `spiro.c` lines 174-176:
`volatile int16_t counter = 6000; int16_t counter_delta = (int16_t)read_adc() + 10;
while ((counter -= counter_delta) >= 0) {}`.
`countdownIters c d` counts the decrements executed when the counter still
holds the non-negative value `c`: one decrement is performed, and the loop
exits as soon as the result is negative.  (For `d = 0` the C loop would
never exit; `d` is always at least 10 in the program, and the `0` returned
in that unreachable case is a guard for totality only.) -/
def countdownIters (c d : Nat) : Nat :=
  if _h : d = 0 then 0
  else if _h2 : c < d then 1
  else 1 + countdownIters (c - d) d
termination_by c
decreasing_by omega

/-- One iteration of the outer loop in manual mode (`spiro.c` lines 97-103):
`adc = read_adc(); rnd += adc; pwm = scale_pwm(adc); set_pwm(pwm);`.
The ADC is modelled as a list of pending samples; the result is the new
random state (`uint16_t` addition wraps modulo 2^16), the new duty, the
list of duty values written, and the samples left unconsumed. -/
def manualIter (rnd pwm : Nat) : List Nat → Nat × Nat × List Nat × List Nat
  | [] => (rnd, pwm, [], [])
  | adc :: rest => ((rnd + adc) % 65536, scale_pwm adc, [scale_pwm adc], rest)

/-- `S n = 1 + 5 + 5^2 + ... + 5^(n-1)`, the partial geometric sum that
appears in the closed form of the iterated generator. -/
def S : Nat → Nat
  | 0 => 0
  | n + 1 => 5 * S n + 1

/-! ### Helper lemmas about the scaler -/

set_option maxRecDepth 4096 in
theorem scale_pwm_eq : ∀ inp : Nat, inp < 256 →
    scale_pwm inp = (193 * inp + 127) / 255 + 62 := by decide

theorem scale_pwm_ge (inp : Nat) (h : inp < 256) : PWM_MIN ≤ scale_pwm inp := by
  rw [scale_pwm_eq inp h]
  simp [PWM_MIN]

theorem scale_pwm_le (inp : Nat) (h : inp < 256) : scale_pwm inp ≤ 255 := by
  rw [scale_pwm_eq inp h]
  have h1 : 193 * inp + 127 ≤ 193 * 255 + 127 := by omega
  have h2 : (193 * inp + 127) / 255 ≤ (193 * 255 + 127) / 255 :=
    Nat.div_le_div_right h1
  omega

theorem scale_pwm_mono (a b : Nat) (hab : a ≤ b) (hb : b < 256) :
    scale_pwm a ≤ scale_pwm b := by
  rw [scale_pwm_eq a (by omega), scale_pwm_eq b hb]
  have h1 : 193 * a + 127 ≤ 193 * b + 127 := by omega
  have h2 : (193 * a + 127) / 255 ≤ (193 * b + 127) / 255 :=
    Nat.div_le_div_right h1
  omega

/-! ### Helper lemmas about the ramp loop -/

theorem rampGo_waits (ip : Nat) (dp : Int) :
    ∀ (n pwm : Nat) (e : Int), (rampGo ip dp n pwm e).waits = n := by
  intro n
  induction n with
  | zero => intro pwm e; rfl
  | succ n ih =>
    intro pwm e
    simp only [rampGo]
    by_cases hs : 0 ≤ e + dp
    · rw [if_pos hs]
      simp [ih]
    · rw [if_neg hs]
      simp [ih]

theorem rampGo_spec (ip m : Nat) (hm : m ≤ 255) :
    ∀ (n pwm : Nat) (e : Int), pwm < 256 → -510 ≤ e → e ≤ -1 →
    rampGo ip (2 * (m : Int)) n pwm e =
      ⟨(pwm + ip * stepCount m n e) % 256,
       (List.range (stepCount m n e)).map (fun j => (pwm + ip * (j + 1)) % 256),
       n⟩ := by
  intro n
  induction n with
  | zero =>
    intro pwm e hp h1 h2
    simp [rampGo, stepCount, Nat.mod_eq_of_lt hp]
  | succ n ih =>
    intro pwm e hp h1 h2
    have hm' : (m : Int) ≤ 255 := by exact_mod_cast hm
    simp only [rampGo, stepCount]
    by_cases hs : 0 ≤ e + 2 * (m : Int)
    · rw [if_pos hs, if_pos hs]
      rw [ih ((pwm + ip) % 256) (e + 2 * (m : Int) - 510)
            (Nat.mod_lt _ (by norm_num)) (by omega) (by omega)]
      refine congrArg₂ (fun a b => LegTrace.mk a b (n + 1)) ?_ ?_
      · rw [Nat.mod_add_mod]
        congr 1
        ring
      · rw [List.range_succ_eq_map, List.map_cons, List.map_map]
        refine congrArg₂ List.cons ?_ ?_
        · congr 1
          ring
        · refine List.map_congr_left ?_
          intro j _
          simp only [Function.comp_apply]
          rw [Nat.mod_add_mod]
          congr 1
          rw [Nat.succ_eq_add_one]
          ring
    · rw [if_neg hs, if_neg hs]
      rw [ih pwm (e + 2 * (m : Int)) hp (by omega) (by omega)]

theorem stepCount_closed (m : Nat) (hm : m ≤ 255) :
    ∀ (n : Nat) (e : Int), -510 ≤ e → e ≤ -1 →
    stepCount m n e = (2 * (m : Int) * (n : Int) + e + 510).toNat / 510 := by
  intro n
  induction n with
  | zero =>
    intro e h1 h2
    simp only [stepCount, Nat.cast_zero, mul_zero, zero_add]
    omega
  | succ n ih =>
    intro e h1 h2
    have hm' : (m : Int) ≤ 255 := by exact_mod_cast hm
    have hexp : 2 * (m : Int) * ((n + 1 : Nat) : Int)
        = 2 * (m : Int) * (n : Int) + 2 * (m : Int) := by push_cast; ring
    simp only [stepCount]
    rw [hexp]
    by_cases hs : 0 ≤ e + 2 * (m : Int)
    · rw [if_pos hs, ih (e + 2 * (m : Int) - 510) (by omega) (by omega)]
      have ht : 0 ≤ 2 * (m : Int) * (n : Int) := by positivity
      revert ht
      generalize 2 * (m : Int) * (n : Int) = t
      intro ht
      omega
    · rw [if_neg hs, ih (e + 2 * (m : Int)) (by omega) (by omega)]
      have ht : 0 ≤ 2 * (m : Int) * (n : Int) := by positivity
      revert ht
      generalize 2 * (m : Int) * (n : Int) = t
      intro ht
      omega

theorem stepCount_leg (m : Nat) (hm : m ≤ 255) :
    stepCount m 256 (-255) = legSteps m := by
  rw [stepCount_closed m hm 256 (-255) (by omega) (by omega)]
  have hexp : 2 * (m : Int) * ((256 : Nat) : Int) = 512 * (m : Int) := by
    push_cast; ring
  rw [hexp]
  unfold legSteps
  split_ifs with h <;> omega

theorem rampLeg_spec_up (pwm to_pwm : Nat) (h1 : pwm ≤ to_pwm) (h2 : to_pwm ≤ 255) :
    rampLeg pwm to_pwm =
      ⟨(pwm + legSteps (to_pwm - pwm)) % 256,
       (List.range (legSteps (to_pwm - pwm))).map (fun j => (pwm + (j + 1)) % 256),
       256⟩ := by
  unfold rampLeg
  have hc : ¬ ((to_pwm : Int) - (pwm : Int) < 0) := by omega
  rw [if_neg hc]
  have hdp : ((to_pwm : Int) - (pwm : Int)) * 2 = 2 * (((to_pwm - pwm : Nat)) : Int) := by
    push_cast [h1]; ring
  rw [hdp]
  rw [rampGo_spec 1 (to_pwm - pwm) (by omega) 256 pwm (-255) (by omega) (by omega) (by omega)]
  rw [stepCount_leg (to_pwm - pwm) (by omega)]
  simp

theorem rampLeg_spec_down (pwm to_pwm : Nat) (h1 : to_pwm < pwm) (h2 : pwm ≤ 255) :
    rampLeg pwm to_pwm =
      ⟨(pwm + 255 * legSteps (pwm - to_pwm)) % 256,
       (List.range (legSteps (pwm - to_pwm))).map (fun j => (pwm + 255 * (j + 1)) % 256),
       256⟩ := by
  unfold rampLeg
  have hc : ((to_pwm : Int) - (pwm : Int) < 0) := by omega
  rw [if_pos hc]
  have hdp : (-((to_pwm : Int) - (pwm : Int))) * 2 = 2 * (((pwm - to_pwm : Nat)) : Int) := by
    push_cast [le_of_lt h1]; ring
  rw [hdp]
  rw [rampGo_spec 255 (pwm - to_pwm) (by omega) 256 pwm (-255) (by omega) (by omega) (by omega)]
  rw [stepCount_leg (pwm - to_pwm) (by omega)]

/-! ### Claim C1: ramp convergence -/

set_option maxRecDepth 4096 in
/-- C1 counterexample: at the spec's own example input, `current = 0x20`,
`target = 0xE0` (a scaler-produced value, `scale_pwm 214 = 0xE0 = 224`),
the ramp leg performs 193 duty changes, not `|target - current| = 192`,
and ends at duty 225, not at the target 224. -/
theorem ramp_overshoot_cex :
    scale_pwm 214 = 224
  ∧ (rampLeg 32 224).finalPwm = 225
  ∧ (rampLeg 32 224).finalPwm ≠ 224
  ∧ (rampLeg 32 224).writes.length = 193
  ∧ (rampLeg 32 224).writes.length ≠ 192 := by decide

/-- C1 (amended): a ramp leg from `pwm` to `to_pwm` performs
`legSteps |to_pwm - pwm|` duty changes — that is `|to_pwm - pwm|` when the
travel distance is at most 127, and `|to_pwm - pwm| + 1` when it is 128 or
more.  Each written duty moves one unit further in the direction of the
target (`+1` ascending, `-1 = +255 (mod 256)` descending).  When the
travel distance is at most 127 the leg ends exactly at `to_pwm` and every
intermediate duty lies between the endpoints; when it is 128 or more the
final duty is one unit past the target (modulo 256, so an ascending leg
whose target is 255 wraps to duty 0). -/
theorem ramp_leg_convergence (pwm to_pwm : Nat) (hp : pwm ≤ 255) (ht : to_pwm ≤ 255) :
    (rampLeg pwm to_pwm).writes.length = legSteps (legTravel pwm to_pwm)
  ∧ (rampLeg pwm to_pwm).writes = (List.range (legSteps (legTravel pwm to_pwm))).map
      (fun j => if pwm ≤ to_pwm then (pwm + (j + 1)) % 256 else (pwm + 255 * (j + 1)) % 256)
  ∧ (legTravel pwm to_pwm ≤ 127 →
      (rampLeg pwm to_pwm).finalPwm = to_pwm
      ∧ ∀ w ∈ (rampLeg pwm to_pwm).writes, min pwm to_pwm ≤ w ∧ w ≤ max pwm to_pwm)
  ∧ (128 ≤ legTravel pwm to_pwm →
      (rampLeg pwm to_pwm).finalPwm
        = if pwm ≤ to_pwm then (to_pwm + 1) % 256 else (to_pwm + 255) % 256) := by
  by_cases hdir : pwm ≤ to_pwm
  · have hT : legTravel pwm to_pwm = to_pwm - pwm := by unfold legTravel; omega
    rw [rampLeg_spec_up pwm to_pwm hdir ht, hT]
    refine ⟨by simp, by simp [hdir], ?_, ?_⟩
    · intro h
      have hK : legSteps (to_pwm - pwm) = to_pwm - pwm := by unfold legSteps; split_ifs <;> omega
      rw [hK]
      constructor
      · simp only []
        omega
      · intro w hw
        simp only [List.mem_map, List.mem_range] at hw
        obtain ⟨j, hj, rfl⟩ := hw
        omega
    · intro h
      have hK : legSteps (to_pwm - pwm) = (to_pwm - pwm) + 1 := by unfold legSteps; split_ifs <;> omega
      rw [hK, if_pos hdir]
      simp only []
      omega
  · push_neg at hdir
    have hT : legTravel pwm to_pwm = pwm - to_pwm := by unfold legTravel; omega
    rw [rampLeg_spec_down pwm to_pwm hdir hp, hT]
    refine ⟨by simp, by simp [Nat.not_le.mpr hdir], ?_, ?_⟩
    · intro h
      have hK : legSteps (pwm - to_pwm) = pwm - to_pwm := by unfold legSteps; split_ifs <;> omega
      rw [hK]
      constructor
      · simp only []
        omega
      · intro w hw
        simp only [List.mem_map, List.mem_range] at hw
        obtain ⟨j, hj, rfl⟩ := hw
        omega
    · intro h
      have hK : legSteps (pwm - to_pwm) = (pwm - to_pwm) + 1 := by unfold legSteps; split_ifs <;> omega
      rw [hK, if_neg (Nat.not_le.mpr hdir)]
      simp only []
      omega

/-- Witness for C1 (amended): the leg from duty 100 to duty 150 ends at
exactly 150. -/
theorem ramp_leg_convergence_w : (rampLeg 100 150).finalPwm = 150 :=
  ((ramp_leg_convergence 100 150 (by decide) (by decide)).2.2.1 (by decide)).1

/-! ### Claim C2: PWM_MIN floor on written duties -/

set_option maxRecDepth 4096 in
/-- C2 counterexample: the ramp leg from duty 62 (= `scale_pwm 0`, a value
manual mode can leave in `pwm`) up to the scaler-produced target 255
(= `scale_pwm 255`) writes the duty 0 to the PWM output — its 194th and
last write wraps past 255 to 0, far below `PWM_MIN = 62`. -/
theorem duty_floor_cex :
    (∃ w ∈ (rampLeg 62 255).writes, w < PWM_MIN)
  ∧ scale_pwm 0 = 62 ∧ scale_pwm 255 = 255
  ∧ (rampLeg 62 255).writes.getLast? = some 0 := by decide

/-- C2 (amended): manual-mode writes are always at least `PWM_MIN`, and a
ramp leg whose endpoints both lie in `[PWM_MIN, 255]` never writes a duty
below `PWM_MIN - 1 = 61` — except that a leg ascending to target 255 from
a duty of at most 127 overshoots by one step and wraps its final write to
duty 0. -/
theorem duty_floor (adc pwm to_pwm : Nat) (hadc : adc ≤ 255)
    (hp1 : PWM_MIN ≤ pwm) (hp2 : pwm ≤ 255)
    (ht1 : PWM_MIN ≤ to_pwm) (ht2 : to_pwm ≤ 255) :
    PWM_MIN ≤ scale_pwm adc
  ∧ ∀ w ∈ (rampLeg pwm to_pwm).writes,
      PWM_MIN - 1 ≤ w ∨ (to_pwm = 255 ∧ pwm ≤ 127 ∧ w = 0) := by
  have h62 : PWM_MIN = 62 := rfl
  constructor
  · exact scale_pwm_ge adc (by omega)
  · intro w hw
    by_cases hdir : pwm ≤ to_pwm
    · rw [rampLeg_spec_up pwm to_pwm hdir ht2] at hw
      simp only [List.mem_map, List.mem_range] at hw
      obtain ⟨j, hj, rfl⟩ := hw
      unfold legSteps at hj
      split_ifs at hj <;> omega
    · push_neg at hdir
      rw [rampLeg_spec_down pwm to_pwm hdir hp2] at hw
      simp only [List.mem_map, List.mem_range] at hw
      obtain ⟨j, hj, rfl⟩ := hw
      unfold legSteps at hj
      split_ifs at hj <;> omega

/-- Witness for C2 (amended): the scaler output for input 0 is at least
`PWM_MIN`. -/
theorem duty_floor_w : PWM_MIN ≤ scale_pwm 0 :=
  (duty_floor 0 200 100 (by decide) (by decide) (by decide) (by decide) (by decide)).1

/-! ### Claim C3: number of decision steps per leg -/

set_option maxRecDepth 4096 in
/-- C3 counterexample: one ramp leg executes 256 busy-wait delays (the
loop `for (t = 255; t >= 0; t--)` runs for `t = 255, ..., 0`), not 255 as
claimed; shown here on the equal-endpoints leg from 100 to 100. -/
theorem wait_count_cex :
    (rampLeg 100 100).waits = 256 ∧ (rampLeg 100 100).waits ≠ 255 := by decide

/-- C3 (amended): every ramp leg performs exactly 256 decision steps, each
with one variable-length timing wait, regardless of the travel distance;
a leg whose target equals its current duty performs zero duty changes
while still executing all 256 timing waits. -/
theorem leg_decision_steps (pwm to_pwm : Nat) (hp : pwm ≤ 255) :
    (rampLeg pwm to_pwm).waits = 256
  ∧ (rampLeg pwm pwm).writes = [] := by
  constructor
  · simp only [rampLeg]
    split_ifs <;> exact rampGo_waits _ _ 256 pwm (-255)
  · rw [rampLeg_spec_up pwm pwm le_rfl hp]
    simp [legSteps]

/-- Witness for C3 (amended): the leg from duty 10 to duty 200 executes
exactly 256 timing waits. -/
theorem leg_decision_steps_w : (rampLeg 10 200).waits = 256 :=
  (leg_decision_steps 10 200 (by decide)).1

/-! ### Claim C5: the scaler formula and its endpoints -/

/-- C5: `scale_pwm` computes exactly
`((255 - PWM_MIN) * input + 127) / 255 + PWM_MIN` with `PWM_MIN = 62`
(the fixed-width reductions in the C expression are no-ops on the 8-bit
domain), and it maps both endpoints exactly: `scale_pwm 0 = PWM_MIN` and
`scale_pwm 255 = 255`. -/
theorem scaler_formula (inp : Nat) (h : inp ≤ 255) :
    scale_pwm inp = ((255 - PWM_MIN) * inp + 127) / 255 + PWM_MIN
  ∧ PWM_MIN = 62
  ∧ scale_pwm 0 = PWM_MIN
  ∧ scale_pwm 255 = 255 := by
  refine ⟨?_, rfl, by decide, by decide⟩
  have := scale_pwm_eq inp (by omega)
  simpa [PWM_MIN] using this

/-- Witness for C5 at input 100. -/
theorem scaler_formula_w :
    scale_pwm 100 = ((255 - PWM_MIN) * 100 + 127) / 255 + PWM_MIN :=
  (scaler_formula 100 (by decide)).1

/-! ### Claim C6: scaler range and monotonicity -/

/-- C6: for every 8-bit input, `scale_pwm` lands in `[PWM_MIN, 255]`, and
`scale_pwm` is monotone on the 8-bit domain. -/
theorem scaler_range_mono (a b : Nat) (ha : a ≤ 255) (hb : b ≤ 255) :
    (PWM_MIN ≤ scale_pwm a ∧ scale_pwm a ≤ 255)
  ∧ (a < b → scale_pwm a ≤ scale_pwm b) := by
  exact ⟨⟨scale_pwm_ge a (by omega), scale_pwm_le a (by omega)⟩,
    fun hab => scale_pwm_mono a b (le_of_lt hab) (by omega)⟩

/-- Witness for C6 at inputs 3 < 4. -/
theorem scaler_range_mono_w :
    (PWM_MIN ≤ scale_pwm 3 ∧ scale_pwm 3 ≤ 255) ∧ scale_pwm 3 ≤ scale_pwm 4 :=
  ⟨(scaler_range_mono 3 4 (by decide) (by decide)).1,
   (scaler_range_mono 3 4 (by decide) (by decide)).2 (by decide)⟩

/-! ### Claim C10: no 16-bit wraparound inside the scaler -/

/-- C10: for every 8-bit input the 16-bit intermediate
`(255 - PWM_MIN) * input + 127` is at most `49342 < 2^16`, so the
`uint16_t` computation in `scale_pwm` never wraps, and the quotient fits
in 8 bits, so the `uint8_t` cast before adding `PWM_MIN` is also exact. -/
theorem scaler_no_overflow (inp : Nat) (h : inp ≤ 255) :
    (255 - PWM_MIN) * inp + 127 ≤ 49342
  ∧ 49342 < 65536
  ∧ ((255 - PWM_MIN) * inp + 127) % 65536 = (255 - PWM_MIN) * inp + 127
  ∧ ((255 - PWM_MIN) * inp + 127) / 255 % 256 = ((255 - PWM_MIN) * inp + 127) / 255 := by
  have h62 : PWM_MIN = 62 := rfl
  rw [h62]
  omega

/-- Witness for C10 at the maximal input 255. -/
theorem scaler_no_overflow_w : (255 - PWM_MIN) * 255 + 127 ≤ 49342 :=
  (scaler_no_overflow 255 (by decide)).1

/-! ### Helper lemmas about the busy-wait loop -/

theorem countdownIters_eq (d : Nat) (hd : d ≠ 0) :
    ∀ c, countdownIters c d = c / d + 1 := by
  intro c
  induction c using Nat.strong_induction_on with
  | _ c ih =>
    unfold countdownIters
    rw [dif_neg hd]
    by_cases hc : c < d
    · rw [dif_pos hc, Nat.div_eq_of_lt hc]
    · rw [dif_neg hc]
      rw [ih (c - d) (by omega)]
      have h2 := Nat.div_eq_sub_div (Nat.pos_of_ne_zero hd) (le_of_not_lt hc)
      omega

/-! ### Claim C9: busy-wait termination and iteration count -/

/-- C9: the busy-wait decrement `read_adc() + 10` is at least 10 for every
8-bit sample `s`, the countdown from 6000 performs exactly
`6000 / (s + 10) + 1` decrements, and that count never exceeds 601. -/
theorem wait_iters (s : Nat) (hs : s ≤ 255) :
    10 ≤ s + 10
  ∧ countdownIters 6000 (s + 10) = 6000 / (s + 10) + 1
  ∧ countdownIters 6000 (s + 10) ≤ 601 := by
  have he := countdownIters_eq (s + 10) (by omega) 6000
  refine ⟨by omega, he, ?_⟩
  have hle : 6000 / (s + 10) ≤ 6000 / 10 := Nat.div_le_div_left (by omega) (by omega)
  omega

/-- Witness for C9 at sample 0: the wait performs 601 decrements. -/
theorem wait_iters_w : countdownIters 6000 (0 + 10) = 6000 / (0 + 10) + 1 :=
  (wait_iters 0 (by decide)).2.1

/-! ### Claim C7: wait length is antitone in the sample -/

/-- C7: the number of countdown iterations of the per-step busy-wait is
weakly decreasing in the input sample: a larger sample never yields more
iterations. -/
theorem wait_antitone (a b : Nat) (hab : a < b) (hb : b ≤ 255) :
    countdownIters 6000 (b + 10) ≤ countdownIters 6000 (a + 10) := by
  rw [countdownIters_eq (a + 10) (by omega) 6000,
      countdownIters_eq (b + 10) (by omega) 6000]
  have hle : 6000 / (b + 10) ≤ 6000 / (a + 10) :=
    Nat.div_le_div_left (by omega) (by omega)
  omega

/-- Witness for C7 at samples 100 < 200. -/
theorem wait_antitone_w :
    countdownIters 6000 (200 + 10) ≤ countdownIters 6000 (100 + 10) :=
  wait_antitone 100 200 (by decide) (by decide)

/-! ### Claim C8: the manual-mode iteration -/

/-- C8: in manual mode one outer-loop iteration consumes exactly one ADC
sample, folds that same sample into the 16-bit random state
(`rnd += adc`, wrapping modulo 2^16) without otherwise changing it, sets
the duty to `scale_pwm` of the sample, and performs exactly that one PWM
write. -/
theorem manual_iter_spec (rnd pwm adc : Nat) (rest : List Nat) :
    manualIter rnd pwm (adc :: rest)
      = ((rnd + adc) % 65536, scale_pwm adc, [scale_pwm adc], rest) := rfl

/-! ### Helper lemmas about the linear congruential generator -/

theorem four_S : ∀ n : Nat, 4 * S n + 1 = 5 ^ n := by
  intro n
  induction n with
  | zero => rfl
  | succ n ih =>
    rw [show S (n + 1) = 5 * S n + 1 from rfl, pow_succ, ← ih]
    ring

theorem S_mod_two (n : Nat) : S n % 2 = n % 2 := by
  induction n with
  | zero => rfl
  | succ n ih =>
    rw [show S (n + 1) = 5 * S n + 1 from rfl]
    omega

theorem S_two_mul (m : Nat) : S (2 * m) = S m * (5 ^ m + 1) := by
  induction m with
  | zero => rfl
  | succ m ih =>
    have h4 := four_S m
    have e1 : 2 * (m + 1) = (2 * m) + 1 + 1 := by ring
    rw [e1, show S ((2 * m) + 1 + 1) = 5 * (5 * S (2 * m) + 1) + 1 from rfl, ih,
        show S (m + 1) = 5 * S m + 1 from rfl, pow_succ, ← h4]
    ring

theorem five_pow_mod_four (m : Nat) : 5 ^ m % 4 = 1 := by
  rw [Nat.pow_mod]
  norm_num

theorem pow_dvd_S_iff : ∀ k : Nat, ∀ n : Nat, 2 ^ k ∣ S n ↔ 2 ^ k ∣ n := by
  intro k
  induction k with
  | zero => intro n; simp
  | succ k ih =>
    intro n
    rcases Nat.even_or_odd n with he | ho
    · obtain ⟨m, hm⟩ := he
      have h2m : n = 2 * m := by omega
      subst h2m
      rw [S_two_mul]
      have h4 := five_pow_mod_four m
      have hsplit : 5 ^ m + 1 = 2 * ((5 ^ m + 1) / 2) := by omega
      have hodd : ((5 ^ m + 1) / 2) % 2 = 1 := by omega
      rw [hsplit]
      have step1 : 2 ^ (k + 1) ∣ S m * (2 * ((5 ^ m + 1) / 2))
          ↔ 2 ^ k ∣ S m * ((5 ^ m + 1) / 2) := by
        rw [pow_succ]
        constructor
        · intro h
          have h' : 2 * 2 ^ k ∣ 2 * (S m * ((5 ^ m + 1) / 2)) := by
            rw [mul_comm 2 (2 ^ k)]
            calc 2 ^ k * 2 ∣ S m * (2 * ((5 ^ m + 1) / 2)) := h
            _ = 2 * (S m * ((5 ^ m + 1) / 2)) := by ring
          exact (Nat.mul_dvd_mul_iff_left (by omega : 0 < 2)).mp h'
        · intro h
          have h' : 2 * 2 ^ k ∣ 2 * (S m * ((5 ^ m + 1) / 2)) :=
            Nat.mul_dvd_mul_left 2 h
          calc 2 ^ k * 2 = 2 * 2 ^ k := by ring
          _ ∣ 2 * (S m * ((5 ^ m + 1) / 2)) := h'
          _ = S m * (2 * ((5 ^ m + 1) / 2)) := by ring
      rw [step1]
      have hcop : Nat.Coprime (2 ^ k) ((5 ^ m + 1) / 2) :=
        Nat.Coprime.pow_left k (Nat.coprime_two_left.mpr (Nat.odd_iff.mpr hodd))
      have step2 : 2 ^ k ∣ S m * ((5 ^ m + 1) / 2) ↔ 2 ^ k ∣ S m := by
        constructor
        · intro h
          exact hcop.dvd_of_dvd_mul_right h
        · intro h
          exact h.mul_right _
      rw [step2, ih m]
      constructor
      · intro h
        rw [pow_succ]
        calc 2 ^ k * 2 = 2 * 2 ^ k := by ring
        _ ∣ 2 * m := Nat.mul_dvd_mul_left 2 h
      · intro h
        rw [pow_succ] at h
        have h' : 2 * 2 ^ k ∣ 2 * m := by
          calc 2 * 2 ^ k = 2 ^ k * 2 := by ring
          _ ∣ 2 * m := h
        exact (Nat.mul_dvd_mul_iff_left (by omega : 0 < 2)).mp h'
    · have hn : n % 2 = 1 := Nat.odd_iff.mp ho
      have hS : S n % 2 = 1 := by rw [S_mod_two]; omega
      constructor
      · intro h
        exfalso
        have h2 : (2 : Nat) ∣ S n := dvd_trans (dvd_pow_self 2 (Nat.succ_ne_zero k)) h
        omega
      · intro h
        exfalso
        have h2 : (2 : Nat) ∣ n := dvd_trans (dvd_pow_self 2 (Nat.succ_ne_zero k)) h
        omega

theorem rndStep_lt (r : Nat) : rndStep r < 65536 :=
  Nat.mod_lt _ (by norm_num)

theorem iterate_rndStep_lt (n r : Nat) (h : r < 65536) : rndStep^[n] r < 65536 := by
  induction n with
  | zero => exact h
  | succ n ih =>
    rw [Function.iterate_succ_apply']
    exact rndStep_lt _

theorem rndStep_mod (r : Nat) : rndStep (r % 65536) = (5 * r + 0x3333) % 65536 := by
  unfold rndStep
  omega

theorem rndStep_iterate : ∀ (n r : Nat),
    rndStep^[n] (r % 65536) = (5 ^ n * r + 0x3333 * S n) % 65536 := by
  intro n
  induction n with
  | zero =>
    intro r
    simp [S]
  | succ n ih =>
    intro r
    rw [Function.iterate_succ_apply, rndStep_mod, ih (5 * r + 0x3333)]
    have hS : S (n + 1) = S n + 5 ^ n := by
      have := four_S n
      rw [show S (n + 1) = 5 * S n + 1 from rfl]
      omega
    rw [hS, pow_succ]
    congr 1
    ring

theorem rndStep_fixed_iff (r n : Nat) (hr : r < 65536) :
    rndStep^[n] r = r ↔ 65536 ∣ n := by
  have hmod : r % 65536 = r := Nat.mod_eq_of_lt hr
  have hiter : rndStep^[n] r = (5 ^ n * r + 0x3333 * S n) % 65536 := by
    conv_lhs => rw [← hmod]
    exact rndStep_iterate n r
  rw [hiter]
  have h5 : 5 ^ n = 4 * S n + 1 := (four_S n).symm
  have harg : 5 ^ n * r + 0x3333 * S n = r + S n * (4 * r + 0x3333) := by
    rw [h5]; ring
  rw [harg]
  have key : ∀ X : Nat, (r + X) % 65536 = r ↔ 65536 ∣ X := by
    intro X
    omega
  rw [key (S n * (4 * r + 0x3333))]
  have hodd : (4 * r + 0x3333) % 2 = 1 := by omega
  have hcop : Nat.Coprime (2 ^ 16) (4 * r + 0x3333) :=
    Nat.Coprime.pow_left 16 (Nat.coprime_two_left.mpr (Nat.odd_iff.mpr hodd))
  have h65536 : (65536 : Nat) = 2 ^ 16 := by norm_num
  rw [h65536]
  constructor
  · intro h
    exact (pow_dvd_S_iff 16 n).mp (hcop.dvd_of_dvd_mul_right h)
  · intro h
    exact ((pow_dvd_S_iff 16 n).mpr h).mul_right _

/-- C4: the pseudo-random update computes
`new_state = 5 * state + 0x3333 (mod 2^16)`, the ramp target is
`scale_pwm` applied to the high byte `new_state >> 8 = new_state / 256`
of the new state, and iterating the update from any 16-bit seed visits
all 65536 states before repeating: the first 65536 iterates are pairwise
distinct, they cover every 16-bit value, and the state returns to the
seed after exactly 65536 steps. -/
theorem lcg_props :
    (∀ r : Nat, rndStep r = (5 * r + 0x3333) % 65536)
  ∧ (∀ rnd : Nat, rampTarget rnd = scale_pwm (rndStep rnd / 256))
  ∧ (∀ seed : Nat, seed < 65536 →
      (∀ i j : Nat, i < j → j < 65536 → rndStep^[i] seed ≠ rndStep^[j] seed)
      ∧ (∀ y : Nat, y < 65536 → ∃ n : Nat, n < 65536 ∧ rndStep^[n] seed = y)
      ∧ rndStep^[65536] seed = seed) := by
  refine ⟨?_, ?_, ?_⟩
  · intro r
    unfold rndStep
    omega
  · intro rnd
    unfold rampTarget
    rw [Nat.shiftRight_eq_div_pow]
  · intro seed hseed
    have hdist : ∀ i j : Nat, i < j → j < 65536 → rndStep^[i] seed ≠ rndStep^[j] seed := by
      intro i j hij hj heq
      have hlt : rndStep^[i] seed < 65536 := iterate_rndStep_lt i seed hseed
      have hsplit : rndStep^[j] seed = rndStep^[j - i] (rndStep^[i] seed) := by
        rw [← Function.iterate_add_apply]
        congr 1
        omega
      rw [hsplit] at heq
      have hdvd := (rndStep_fixed_iff (rndStep^[i] seed) (j - i) hlt).mp heq.symm
      omega
    refine ⟨hdist, ?_, ?_⟩
    · intro y hy
      have hinj : Function.Injective
          (fun i : Fin 65536 =>
            (⟨rndStep^[i.val] seed, iterate_rndStep_lt i.val seed hseed⟩ : Fin 65536)) := by
        intro a b hab
        simp only [Fin.mk.injEq] at hab
        by_contra hne
        rcases Nat.lt_or_ge a.val b.val with h | h
        · exact hdist a.val b.val h b.isLt hab
        · have hba : b.val < a.val := by
            rcases Nat.lt_or_ge b.val a.val with h' | h'
            · exact h'
            · exact absurd (Fin.ext (by omega)) hne
          exact hdist b.val a.val hba a.isLt hab.symm
      have hsurj := Finite.injective_iff_surjective.mp hinj
      obtain ⟨i, hi⟩ := hsurj ⟨y, hy⟩
      exact ⟨i.val, i.isLt, congrArg Fin.val hi⟩
    · exact (rndStep_fixed_iff seed 65536 hseed).mpr dvd_rfl

/-- Witness for C4: from seed 0 the first iterate differs from the seed,
and one update step from seed 0 gives `0x3333`. -/
theorem lcg_props_w :
    rndStep 0 = (5 * 0 + 0x3333) % 65536
  ∧ rndStep^[0] 0 ≠ rndStep^[1] 0 :=
  ⟨lcg_props.1 0, (lcg_props.2.2 0 (by decide)).1 0 1 (by decide) (by decide)⟩
